import Mathlib

/-!
# Verification of the docstring-paired definition chunker

This development embeds the chunking pipeline of `dev_tools/julia_chunks.py`
(repeated near-verbatim in `architectural_decisions/initialize_agent.py`),
together with the document projections that consume its chunks
(`transform_chunks_to_documents` in `initialize_agent.py` and
`CodingExpertAgent.load_julia_code` in `dev_tools/code_specialist_agent.py`).

Python strings are modelled as `List Char`.  The compiled regular expression

```
DOCSTRING_DEFINITION_PATTERN = re.compile(
    r'"""(.*?)"""'
    r'\s*\n+'
    r'(function\s+.*?end'
    r'|(?:mutable\s+)?struct\s+.*?end'
    r'|abstract\s+type\s+.*?end)',
    re.DOTALL)
```

is embedded as an executable matcher specialised to exactly this pattern,
reproducing Python `re` semantics for it: leftmost match, lazy `(.*?)`
groups tried shortest-first with backtracking, greedy `\s*`/`\n+`/`?`, and
ordered alternation.  Because every definition alternative begins with a
letter (`f`, `m`, `s`, `a`) and `end` begins with a letter, the greedy
pieces admit exactly one viable split, which the embedding computes
directly; the lazy docstring group is implemented by genuine backtracking
over successive closing delimiters.  `\s` and `str.strip` whitespace are
modelled by the six ASCII whitespace characters (the only ones the regex
and `strip` treat specially on ASCII input).
-/

namespace Hedgehog

/-- Python's `\s` character class (and `str.strip` whitespace), restricted to
the ASCII whitespace characters space, tab, newline, carriage return,
vertical tab and form feed. -/
def isSpace (c : Char) : Bool :=
  c == ' ' || c == '\t' || c == '\n' || c == '\r' || c == '\x0b' || c == '\x0c'

/-- The identifier character class `[a-zA-Z0-9_!?']` used by the name
regexes in `parse_definition_type_and_name`. -/
def isIdentChar (c : Char) : Bool :=
  c.isAlpha || c.isDigit || c == '_' || c == '!' || c == '?' || c == '\''

/-- Matching a literal at the head of the input; models Python's
`str.startswith` and a literal piece of a regex. -/
def lstartsWith : List Char → List Char → Bool
  | [], _ => true
  | _ :: _, [] => false
  | a :: p, b :: l => a == b && lstartsWith p l

/-- Length of the maximal whitespace run at the head of the input
(the text a greedy `\s*` consumes before a non-whitespace character). -/
def wsCount : List Char → Nat
  | [] => 0
  | c :: t => if isSpace c then wsCount t + 1 else 0

/-- Index of the first occurrence of `p` as a contiguous substring of the
input: where a lazy `.*?` followed by the literal `p` stops. -/
def findSub (p : List Char) : List Char → Option Nat
  | [] => if lstartsWith p [] then some 0 else none
  | c :: t =>
    if lstartsWith p (c :: t) then some 0
    else (findSub p t).map (fun i => i + 1)

/-- `str.strip()`: remove leading and trailing whitespace. -/
def pyStrip (l : List Char) : List Char :=
  ((l.dropWhile isSpace).reverse.dropWhile isSpace).reverse

/-- The triple-quote delimiter `\x22\x22\x22` of the docstring block. -/
def quote3 : List Char := ['"', '"', '"']

/-- The literal `end` terminating each definition alternative. -/
def kwEnd : List Char := ['e', 'n', 'd']

/-- The literal `function`. -/
def kwFunction : List Char := ['f', 'u', 'n', 'c', 't', 'i', 'o', 'n']

/-- The literal `struct`. -/
def kwStruct : List Char := ['s', 't', 'r', 'u', 'c', 't']

/-- The literal `mutable`. -/
def kwMutable : List Char := ['m', 'u', 't', 'a', 'b', 'l', 'e']

/-- The literal `abstract`. -/
def kwAbstract : List Char := ['a', 'b', 's', 't', 'r', 'a', 'c', 't']

/-- The literal `type`. -/
def kwType : List Char := ['t', 'y', 'p', 'e']

/-- The literal `abstract type` (with the single space used by
`startswith("abstract type")`). -/
def kwAbstractType : List Char := kwAbstract ++ [' '] ++ kwType

/-- The literal `mutable struct` (with the single space used by
`startswith("mutable struct")`). -/
def kwMutableStruct : List Char := kwMutable ++ [' '] ++ kwStruct

/-- First alternative of group 2, `function\s+.*?end`: the literal
`function`, at least one whitespace character, then everything up to and
including the first occurrence of `end`.  (`\s+` is greedy, but since
`end` starts with a letter the extent of the match does not depend on the
`\s+`/`.*?` split, so one whitespace character is consumed here and the
rest is left to the `end` search.)  Returns the consumed prefix. -/
def matchFunctionAlt (u : List Char) : Option (List Char) :=
  if lstartsWith kwFunction u then
    match u.drop 8 with
    | [] => none
    | c :: rest =>
      if isSpace c then
        match findSub kwEnd rest with
        | some i => some (kwFunction ++ c :: rest.take (i + 3))
        | none => none
      else none
  else none

/-- The core `struct\s+.*?end` of the second alternative. -/
def matchStructCore (u : List Char) : Option (List Char) :=
  if lstartsWith kwStruct u then
    match u.drop 6 with
    | [] => none
    | c :: rest =>
      if isSpace c then
        match findSub kwEnd rest with
        | some i => some (kwStruct ++ c :: rest.take (i + 3))
        | none => none
      else none
  else none

/-- Second alternative of group 2, `(?:mutable\s+)?struct\s+.*?end`.  The
optional group is greedy: `mutable\s+` is tried first and the engine falls
back to the plain `struct` match if the remainder fails. -/
def matchStructAlt (u : List Char) : Option (List Char) :=
  if lstartsWith kwMutable u then
    match wsCount (u.drop 7) with
    | 0 => matchStructCore u
    | w + 1 =>
      match matchStructCore (u.drop (7 + (w + 1))) with
      | some d => some (kwMutable ++ (u.drop 7).take (w + 1) ++ d)
      | none => matchStructCore u
  else matchStructCore u

/-- Third alternative of group 2, `abstract\s+type\s+.*?end`. -/
def matchAbstractAlt (u : List Char) : Option (List Char) :=
  if lstartsWith kwAbstract u then
    match wsCount (u.drop 8) with
    | 0 => none
    | w + 1 =>
      if lstartsWith kwType (u.drop (8 + (w + 1))) then
        match u.drop (8 + (w + 1) + 4) with
        | [] => none
        | c :: rest =>
          if isSpace c then
            match findSub kwEnd rest with
            | some i =>
              some (kwAbstract ++ (u.drop 8).take (w + 1) ++ kwType ++
                c :: rest.take (i + 3))
            | none => none
          else none
      else none
  else none

/-- Group 2 of the pattern: the ordered alternation of the three
definition shapes.  Returns the raw `definition_code` group. -/
def matchAlt (u : List Char) : Option (List Char) :=
  match matchFunctionAlt u with
  | some d => some d
  | none =>
    match matchStructAlt u with
    | some d => some d
    | none => matchAbstractAlt u

/-- The `\s*\n+` between the closing docstring delimiter and the
definition, followed by group 2.  The whitespace consumed is exactly the
maximal whitespace run (the alternatives start with letters), and `\n+`
requires it to be non-empty and to end with a newline.  Returns the
consumed whitespace gap and the definition group. -/
def matchRest (t : List Char) : Option (List Char × List Char) :=
  match wsCount t with
  | 0 => none
  | w + 1 =>
    if (t.take (w + 1)).getLast? == some '\n' then
      (matchAlt (t.drop (w + 1))).map (fun d => (t.take (w + 1), d))
    else none

/-- The lazy docstring group: given the text `r` following the opening
delimiter, try each closing `\x22\x22\x22` in left-to-right order (the
backtracking order of `(.*?)`), committing to the first one from which
`matchRest` succeeds.  Returns (group 1 content, gap, group 2). -/
def matchClose : List Char → Option (List Char × List Char × List Char)
  | [] => none
  | c :: t =>
    match
      (if lstartsWith quote3 (c :: t) then matchRest ((c :: t).drop 3)
       else none) with
    | some (g, d) => some ([], g, d)
    | none =>
      match matchClose t with
      | some (cont, g, d) => some (c :: cont, g, d)
      | none => none

/-- One attempt of `DOCSTRING_DEFINITION_PATTERN` anchored at the start of
`s`: an opening `\x22\x22\x22` followed by the lazy docstring group, the
gap, and the definition group.  Returns (group 1, gap, group 2); the total
match length is `6 + |group 1| + |gap| + |group 2|`. -/
def matchAt (s : List Char) : Option (List Char × List Char × List Char) :=
  if lstartsWith quote3 s then matchClose (s.drop 3) else none

/-- One regex match as produced by `finditer`: absolute start offset, raw
group 1 (docstring content), the whitespace gap, and raw group 2
(definition code). -/
structure RawMatch where
  pos : Nat
  doc : List Char
  gap : List Char
  defn : List Char
deriving DecidableEq

/-- `finditer` semantics: scan left to right, attempt the pattern at each
position, and resume after the end of each (non-empty) match.  `fuel`
bounds the recursion by the input length. -/
def scanAux : Nat → List Char → Nat → List RawMatch
  | 0, _, _ => []
  | _ + 1, [], _ => []
  | fuel + 1, c :: t, pos =>
    match matchAt (c :: t) with
    | some (doc, g, d) =>
      ⟨pos, doc, g, d⟩ ::
        scanAux fuel (t.drop (5 + doc.length + g.length + d.length))
          (pos + 6 + doc.length + g.length + d.length)
    | none => scanAux fuel t (pos + 1)

/-- All matches of `DOCSTRING_DEFINITION_PATTERN.finditer(code)`. -/
def scanMatches (code : List Char) : List RawMatch :=
  scanAux (code.length + 1) code 0

/-- `find_docstring_definitions`: yields
`(docstring_text, definition_code, start_offset, end_offset)` with both
groups stripped, exactly as in the source. -/
def find_docstring_definitions (code : List Char) :
    List (List Char × List Char × Nat × Nat) :=
  (scanMatches code).map (fun m =>
    (pyStrip m.doc, pyStrip m.defn, m.pos,
      m.pos + (6 + m.doc.length + m.gap.length + m.defn.length)))

/-- `compute_line_numbers`: 1-based line numbers from character offsets,
`code[:start_offset].count('\n') + 1` and likewise for the end offset. -/
def compute_line_numbers (code : List Char) (startOff endOff : Nat) :
    Nat × Nat :=
  ((code.take startOff).count '\n' + 1, (code.take endOff).count '\n' + 1)

/-- The name extraction shared by the four branch regexes
`^<keyword>\s+([a-zA-Z0-9_!?']+)` of `parse_definition_type_and_name`:
after the `k` characters of the keyword there must be at least one
whitespace character, then the (maximal, non-empty) run of identifier
characters is the name; otherwise the name stays `unknown`. -/
def nameAfter (k : Nat) (l : List Char) : String :=
  match wsCount (l.drop k) with
  | 0 => "unknown"
  | w + 1 =>
    match ((l.drop k).drop (w + 1)).takeWhile isIdentChar with
    | [] => "unknown"
    | c :: run => ⟨c :: run⟩

/-- `parse_definition_type_and_name`: classify the (stripped) definition
code by `startswith` tests in source order and extract the declared name.
(The `abstract type` and `mutable struct` branches use `\s+` between their
two words, but the `startswith` guard pins that whitespace to the single
space of the literal, so skipping the 13- resp. 14-character literal is
faithful.) -/
def parse_definition_type_and_name (d : List Char) : String × String :=
  if lstartsWith kwFunction d then ("function", nameAfter 8 d)
  else if lstartsWith kwAbstractType d then ("abstract type", nameAfter 13 d)
  else if lstartsWith kwMutableStruct d then ("struct", nameAfter 14 d)
  else if lstartsWith kwStruct d then ("struct", nameAfter 6 d)
  else ("unknown", "unknown")

/-- One chunk dict as assembled by `chunk_julia_file_by_docstring`
(metadata fields inlined). -/
structure Chunk where
  type : String
  name : String
  docstring : List Char
  definition_code : List Char
  filename : String
  start_line : Nat
  end_line : Nat
deriving DecidableEq

/-- The pure body of `chunk_julia_file_by_docstring`: one `Chunk` per
match of `find_docstring_definitions`, in match order. -/
def chunksOfCode (path : String) (code : List Char) : List Chunk :=
  (find_docstring_definitions code).map (fun r =>
    { type := (parse_definition_type_and_name r.2.1).1
      name := (parse_definition_type_and_name r.2.1).2
      docstring := r.1
      definition_code := r.2.1
      filename := path
      start_line := (compute_line_numbers code r.2.2.1 r.2.2.2).1
      end_line := (compute_line_numbers code r.2.2.1 r.2.2.2).2 })

/-- Errors observable from the tree walk.  `decodeError` models the
`UnicodeDecodeError` escaping the `open(..., encoding='utf-8')` read;
`notFound` is the `NotFoundError` of the specification's taxonomy (the
source can never produce it, but it is needed to state claims about it). -/
inductive WalkErr where
  | decodeError (path : String)
  | notFound
deriving DecidableEq

/-- `chunk_julia_file_by_docstring` for one file: the bytes either decode
to `some code` (and the pure chunking runs) or fail to decode, in which
case the `UnicodeDecodeError` propagates — the function has no handler. -/
def chunk_julia_file_by_docstring (path : String)
    (bytes : Option (List Char)) : Except WalkErr (List Chunk) :=
  match bytes with
  | none => Except.error (WalkErr.decodeError path)
  | some code => Except.ok (chunksOfCode path code)

/-- A directory tree as seen by `os.walk`: whether the root exists as a
directory, and — when it does — the walk enumeration, one
`(dirpath, entries)` pair per directory in traversal order, each entry a
file name with its decoded content (`none` if the bytes do not decode). -/
structure FileSystem where
  rootExists : Bool
  walkOrder : List (String × List (String × Option (List Char)))
deriving DecidableEq

/-- `os.walk(dir_path)`: yields the walk enumeration; when the root does
not exist (or is not a directory) the initial `scandir` error is ignored
(the default `onerror=None`) and the walk yields nothing. -/
def osWalk (fs : FileSystem) :
    List (String × List (String × Option (List Char))) :=
  if fs.rootExists then fs.walkOrder else []

/-- `os.path.join(root, file)` (POSIX form). -/
def pathJoin (root file : String) : String := root ++ "/" ++ file

/-- Python's `str.endswith(suffix)`: the reversed string starts with the
reversed suffix. -/
def pyEndsWith (suffix s : List Char) : Bool :=
  lstartsWith suffix.reverse s.reverse

/-- The `.jl` files visited by the loop of `chunk_by_docstring`
(`file.endswith(".jl")`), in walk order, with joined paths. -/
def jlFiles (fs : FileSystem) : List (String × Option (List Char)) :=
  (osWalk fs).flatMap (fun de =>
    (de.2.filter (fun f => pyEndsWith (".jl").data f.1.data)).map (fun f =>
      (pathJoin de.1 f.1, f.2)))

/-- The file loop of `chunk_by_docstring`: chunk each file in order and
concatenate; an undecodable file raises, so the first decode failure
aborts the whole loop and discards everything. -/
def processFiles :
    List (String × Option (List Char)) → Except WalkErr (List Chunk)
  | [] => Except.ok []
  | (path, none) :: _ => Except.error (WalkErr.decodeError path)
  | (path, some code) :: rest =>
    match processFiles rest with
    | Except.ok l => Except.ok (chunksOfCode path code ++ l)
    | Except.error e => Except.error e

/-- `chunk_by_docstring`: walk the tree and chunk every `.jl` file. -/
def chunk_by_docstring (fs : FileSystem) : Except WalkErr (List Chunk) :=
  processFiles (jlFiles fs)

/-- Values of the metadata mapping attached to a projected document. -/
inductive MetaVal where
  | str (v : String)
  | nat (v : Nat)
deriving DecidableEq

/-- A projected document: page content and metadata mapping. -/
abbrev Document := List Char × List (String × MetaVal)

/-- The `metadata` dict built by `chunk_julia_file_by_docstring`
(`filename`, `start_line`, `end_line`). -/
def chunkMetadataDict (c : Chunk) : List (String × MetaVal) :=
  [("filename", MetaVal.str c.filename),
   ("start_line", MetaVal.nat c.start_line),
   ("end_line", MetaVal.nat c.end_line)]

/-- `transform_chunks_to_documents` (`initialize_agent.py`): page content
`f"{docstring}\n\n{definition_code}"`, metadata passed through from the
chunk's `metadata` dict. -/
def transform_chunks_to_documents (cs : List Chunk) : List Document :=
  cs.map (fun c =>
    (c.docstring ++ ('\n' :: '\n' :: c.definition_code),
      chunkMetadataDict c))

/-- The document built per chunk by `CodingExpertAgent.load_julia_code`
(`code_specialist_agent.py`): a labelled multi-line template (with the
12-space indentation of the source f-string) and a metadata dict carrying
`filename`, `start_line`, `end_line` and `name`. -/
def load_julia_code_document (c : Chunk) : Document :=
  (("\n            Type: ").data ++ c.type.data ++
    ("\n            Name: ").data ++ c.name.data ++
    ("\n            \n            Docstring:\n            ").data ++
    c.docstring ++
    ("\n            \n            Definition:\n            ").data ++
    c.definition_code ++ ("\n            ").data,
   [("filename", MetaVal.str c.filename),
    ("start_line", MetaVal.nat c.start_line),
    ("end_line", MetaVal.nat c.end_line),
    ("name", MetaVal.str c.name)])

/-- Modelled from the spec: the name rule of §4.3 — the first
identifier-like token after the keyword(s): the keyword is followed by
whitespace, then the name is the maximal non-empty run of identifier
characters (letters, digits, underscore, `!`, `?`, `'`), stopping at the
first character outside this set; `unknown` if no such token follows. -/
def claimIdentName (k : Nat) (l : List Char) : String :=
  match wsCount (l.drop k) with
  | 0 => "unknown"
  | w + 1 =>
    match ((l.drop k).drop (w + 1)).takeWhile isIdentChar with
    | [] => "unknown"
    | c :: run => ⟨c :: run⟩

/-- Modelled from the spec: the Definition Classifier of §4.3, rules in
the spec's priority order (`abstract type`, `mutable struct`, `struct`,
`function`, otherwise unknown), with the spec's kinds rendered as the
source's strings (`AbstractType` ↦ "abstract type", `Struct` ↦ "struct",
`Function` ↦ "function", `Unknown` ↦ "unknown"). -/
def claimClassify (d : List Char) : String × String :=
  if lstartsWith kwAbstractType d then ("abstract type", claimIdentName 13 d)
  else if lstartsWith kwMutableStruct d then ("struct", claimIdentName 14 d)
  else if lstartsWith kwStruct d then ("struct", claimIdentName 6 d)
  else if lstartsWith kwFunction d then ("function", claimIdentName 8 d)
  else ("unknown", "unknown")

/-- Modelled from the spec: the Document Projector of §4.6 with the
metadata the source actually carries — page text is documentation, a
blank line, then the definition text; metadata carries the file path and
the line range. -/
def claimProjector (c : Chunk) : Document :=
  (c.docstring ++ ('\n' :: '\n' :: c.definition_code),
   [("filename", MetaVal.str c.filename),
    ("start_line", MetaVal.nat c.start_line),
    ("end_line", MetaVal.nat c.end_line)])

/-- Number of (newline-terminated or final) lines a prefix spans: an
independent line counter used to characterise `compute_line_numbers`. -/
def countLines : List Char → Nat
  | [] => 1
  | c :: t => (if c = '\n' then 1 else 0) + countLines t

/-- The classifier-correctness example of spec §8:
`\x22\x22\x22Adds two numbers.\n\x22\x22\x22\nfunction add(a, b)\n  a + b\nend`. -/
def addExampleText : List Char :=
  ("\"\"\"Adds two numbers.\n\"\"\"\nfunction add(a, b)\n  a + b\nend").data

/-- Input on which the lazy docstring capture does not stop at the first
closing delimiter: the first candidate block is not followed by a newline,
so backtracking extends group 1 across two further delimiters. -/
def lazyCexText : List Char :=
  ("\"\"\"a\"\"\" x\n\"\"\"b\"\"\"\nfunction f end").data

/-- Input whose docstring capture is a single newline: non-zero-width
content that strips to the empty documentation. -/
def blankDocText : List Char :=
  ("\"\"\"\n\"\"\"\nfunction f() x end").data

/-- A concrete chunk used to exercise the document projections. -/
def exampleChunk : Chunk :=
  { type := "function"
    name := "add"
    docstring := ("Adds two numbers.").data
    definition_code := ("function add(a, b)\n  a + b\nend").data
    filename := "src/add.jl"
    start_line := 1
    end_line := 5 }

/-- A file system whose root does not exist (the walk order records what
would be there, but `os.walk` never sees it). -/
def missingRootFs : FileSystem :=
  { rootExists := false
    walkOrder := [("src", [("a.jl", some addExampleText)])] }

/-- A file system with one undecodable `.jl` file followed by a
well-formed one. -/
def badDecodeFs : FileSystem :=
  { rootExists := true
    walkOrder := [("src", [("bad.jl", none), ("good.jl", some addExampleText)])] }

/-! ## Basic lemmas about the scanning primitives -/

theorem lstartsWith_iff (p l : List Char) :
    lstartsWith p l = true ↔ ∃ r, l = p ++ r := by
  induction p generalizing l with
  | nil => simp [lstartsWith]
  | cons a p ih =>
    cases l with
    | nil => simp [lstartsWith]
    | cons b t =>
      simp only [lstartsWith, Bool.and_eq_true, beq_iff_eq, ih,
        List.cons_append, List.cons.injEq]
      constructor
      · rintro ⟨rfl, r, rfl⟩; exact ⟨r, rfl, rfl⟩
      · rintro ⟨r, rfl, rfl⟩; exact ⟨rfl, r, rfl⟩

theorem lstartsWith_append (p r : List Char) :
    lstartsWith p (p ++ r) = true :=
  (lstartsWith_iff p (p ++ r)).mpr ⟨r, rfl⟩

theorem lstartsWith_cons_ne {a b : Char} (h : ¬a = b) (p l : List Char) :
    lstartsWith (a :: p) (b :: l) = false := by
  simp [lstartsWith, h]

theorem lstartsWith_length {p l : List Char} (h : lstartsWith p l = true) :
    p.length ≤ l.length := by
  obtain ⟨r, rfl⟩ := (lstartsWith_iff p l).mp h
  rw [List.length_append]
  exact Nat.le_add_right _ _

theorem lstartsWith_take_self (l : List Char) (n : Nat) :
    lstartsWith (l.take n) l = true := by
  induction l generalizing n with
  | nil => cases n <;> rfl
  | cons a t ih =>
    cases n with
    | zero => rfl
    | succ n => simp [lstartsWith, List.take_succ_cons, ih]

theorem lstartsWith_congr_append (a x y : List Char) :
    lstartsWith (a ++ x) (a ++ y) = lstartsWith x y := by
  induction a with
  | nil => rfl
  | cons c a ih => simp [lstartsWith, ih]

theorem drop_append_len (a b : List Char) : (a ++ b).drop a.length = b :=
  List.drop_left a b

theorem eq_append_drop_of_lstartsWith {p l : List Char}
    (h : lstartsWith p l = true) : l = p ++ l.drop p.length := by
  obtain ⟨r, rfl⟩ := (lstartsWith_iff p l).mp h
  rw [drop_append_len]

theorem take_then_drop (l : List Char) (n m : Nat) :
    (l.take n).drop m = (l.drop m).take (n - m) := by
  induction l generalizing n m with
  | nil => simp
  | cons c t ih =>
    cases n with
    | zero => simp
    | succ n =>
      cases m with
      | zero => simp
      | succ m => simpa [List.take_succ_cons, Nat.succ_sub_succ] using ih n m

theorem lstartsWith_take_of {p l : List Char} {k : Nat}
    (h : lstartsWith p l = true) (hk : p.length ≤ k) :
    lstartsWith p (l.take k) = true := by
  induction p generalizing l k with
  | nil => rfl
  | cons a p ih =>
    cases l with
    | nil => simp [lstartsWith] at h
    | cons b t =>
      cases k with
      | zero => simp at hk
      | succ k =>
        simp only [lstartsWith, Bool.and_eq_true, List.take_succ_cons] at h ⊢
        exact ⟨h.1, ih h.2 (by simpa using Nat.le_of_succ_le_succ hk)⟩

theorem lstartsWith_of_take {p l : List Char} {k : Nat}
    (h : lstartsWith p (l.take k) = true) : lstartsWith p l = true := by
  induction p generalizing l k with
  | nil => rfl
  | cons a p ih =>
    cases l with
    | nil => simp [List.take_nil] at h; simp [lstartsWith] at h
    | cons b t =>
      cases k with
      | zero => simp [lstartsWith] at h
      | succ k =>
        simp only [lstartsWith, Bool.and_eq_true, List.take_succ_cons] at h ⊢
        exact ⟨h.1, ih h.2⟩

theorem wsCount_cons (c : Char) (t : List Char) :
    wsCount (c :: t) = if isSpace c then wsCount t + 1 else 0 := rfl

theorem wsCount_le (l : List Char) : wsCount l ≤ l.length := by
  induction l with
  | nil => simp [wsCount]
  | cons c t ih =>
    rw [wsCount_cons]
    by_cases h : isSpace c = true
    · simp only [if_pos h, List.length_cons]; omega
    · simp only [if_neg h]; omega

theorem wsCount_take_space (l : List Char) :
    ∀ x ∈ l.take (wsCount l), isSpace x = true := by
  induction l with
  | nil => simp [wsCount]
  | cons c t ih =>
    by_cases h : isSpace c = true
    · intro x hx
      rw [wsCount_cons, if_pos h, List.take_succ_cons] at hx
      rcases List.mem_cons.mp hx with rfl | hx
      · exact h
      · exact ih x hx
    · intro x hx
      rw [wsCount_cons, if_neg h] at hx
      simp at hx

theorem findSub_nil (p : List Char) :
    findSub p [] = if lstartsWith p [] then some 0 else none := rfl

theorem findSub_cons (p : List Char) (c : Char) (t : List Char) :
    findSub p (c :: t) =
      if lstartsWith p (c :: t) then some 0
      else (findSub p t).map (fun i => i + 1) := rfl

theorem findSub_eq_some_iff {p l : List Char} {i : Nat} :
    findSub p l = some i ↔
      lstartsWith p (l.drop i) = true ∧
      ∀ j, j < i → lstartsWith p (l.drop j) = false := by
  induction l generalizing i with
  | nil =>
    rw [findSub_nil]
    by_cases hp : lstartsWith p [] = true
    · rw [if_pos hp]
      constructor
      · intro h
        injection h with h; subst h
        exact ⟨by simpa using hp, fun j hj => absurd hj (Nat.not_lt_zero j)⟩
      · rintro ⟨h1, h2⟩
        cases i with
        | zero => rfl
        | succ n =>
          have := h2 0 (Nat.succ_pos n)
          simp only [List.drop_zero] at this
          exact absurd (hp.symm.trans this) (by decide)
    · rw [if_neg hp]
      constructor
      · intro h; exact Option.noConfusion h
      · rintro ⟨h1, h2⟩
        simp only [List.drop_nil] at h1
        exact absurd h1 hp
  | cons c t ih =>
    rw [findSub_cons]
    by_cases hc : lstartsWith p (c :: t) = true
    · rw [if_pos hc]
      constructor
      · intro h
        injection h with h; subst h
        exact ⟨by simpa using hc, fun j hj => absurd hj (Nat.not_lt_zero j)⟩
      · rintro ⟨h1, h2⟩
        cases i with
        | zero => rfl
        | succ n =>
          have := h2 0 (Nat.succ_pos n)
          simp only [List.drop_zero] at this
          exact absurd (hc.symm.trans this) (by decide)
    · rw [if_neg hc]
      have hcf : lstartsWith p (c :: t) = false := by
        cases hb : lstartsWith p (c :: t)
        · rfl
        · exact absurd hb hc
      constructor
      · intro h
        cases hft : findSub p t with
        | none => rw [hft] at h; exact Option.noConfusion h
        | some n =>
          rw [hft] at h
          simp only [Option.map_some'] at h
          injection h with h; subst h
          obtain ⟨h1, h2⟩ := ih.mp hft
          refine ⟨by simpa using h1, ?_⟩
          intro j hj
          cases j with
          | zero => simpa using hcf
          | succ j => simpa using h2 j (by omega)
      · rintro ⟨h1, h2⟩
        cases i with
        | zero =>
          simp only [List.drop_zero] at h1
          exact absurd h1 hc
        | succ n =>
          have h1' : lstartsWith p (t.drop n) = true := by simpa using h1
          have h2' : ∀ j, j < n → lstartsWith p (t.drop j) = false := by
            intro j hj
            simpa using h2 (j + 1) (by omega)
          rw [ih.mpr ⟨h1', h2'⟩]
          rfl

theorem findSub_bound {p l : List Char} {i : Nat} (hp : p ≠ [])
    (h : findSub p l = some i) : i + p.length ≤ l.length := by
  have h1 := (findSub_eq_some_iff.mp h).1
  have h2 := lstartsWith_length h1
  rw [List.length_drop] at h2
  by_cases hi : i ≤ l.length
  · omega
  · have hd : l.drop i = [] := List.drop_eq_nil_of_le (by omega)
    rw [hd] at h1
    cases p with
    | nil => exact absurd rfl hp
    | cons a q => simp [lstartsWith] at h1

theorem findSub_take {p l : List Char} {i : Nat} (h : findSub p l = some i) :
    findSub p (l.take (i + p.length)) = some i := by
  obtain ⟨h1, h2⟩ := findSub_eq_some_iff.mp h
  apply findSub_eq_some_iff.mpr
  constructor
  · rw [take_then_drop]
    have he : i + p.length - i = p.length := by omega
    rw [he]
    exact lstartsWith_take_of h1 (Nat.le_refl _)
  · intro j hj
    have hfalse := h2 j hj
    rw [take_then_drop]
    cases hlw : lstartsWith p ((l.drop j).take (i + p.length - j)) with
    | false => rfl
    | true => exact absurd (lstartsWith_of_take hlw) (by simp [hfalse])

/-! ## Where the first `end` occurrence sits after each definition head -/

theorem isSpace_elim {c : Char} (h : isSpace c = true) :
    c = ' ' ∨ c = '\t' ∨ c = '\n' ∨ c = '\r' ∨ c = '\x0b' ∨ c = '\x0c' := by
  simpa [isSpace, or_assoc] using h

theorem beq_e_of_space {c : Char} (h : isSpace c = true) :
    ('e' == c) = false := by
  rcases isSpace_elim h with rfl | rfl | rfl | rfl | rfl | rfl <;> decide

theorem beq_n_of_space {c : Char} (h : isSpace c = true) :
    ('n' == c) = false := by
  rcases isSpace_elim h with rfl | rfl | rfl | rfl | rfl | rfl <;> decide

theorem findSub_end_stepNe {a : Char} (h : ('e' == a) = false)
    (t : List Char) :
    findSub kwEnd (a :: t) = (findSub kwEnd t).map (fun i => i + 1) := by
  have hl : lstartsWith kwEnd (a :: t) = false := by
    show (('e' == a) && lstartsWith ['n', 'd'] t) = false
    rw [h, Bool.false_and]
  rw [findSub_cons, hl]
  simp

theorem findSub_end_stepE {x : Char} (h : ('n' == x) = false)
    (t : List Char) :
    findSub kwEnd ('e' :: x :: t) =
      (findSub kwEnd (x :: t)).map (fun i => i + 1) := by
  have hl : lstartsWith kwEnd ('e' :: x :: t) = false := by
    show (('e' == 'e') && (('n' == x) && lstartsWith ['d'] t)) = false
    rw [h]
    simp
  rw [findSub_cons, hl]
  simp

theorem findSub_end_ws {ws : List Char} (hws : ∀ x ∈ ws, isSpace x = true)
    (b : List Char) :
    findSub kwEnd (ws ++ b) =
      (findSub kwEnd b).map (fun i => i + ws.length) := by
  induction ws with
  | nil => simp
  | cons x ws ih =>
    have hx := hws x (List.mem_cons_self x ws)
    rw [List.cons_append, findSub_end_stepNe (beq_e_of_space hx),
      ih (fun y hy => hws y (List.mem_cons_of_mem x hy))]
    cases findSub kwEnd b with
    | none => rfl
    | some i =>
      simp only [Option.map_some', List.length_cons, Option.some.injEq]
      omega

theorem findSub_end_function (c : Char) (hc : isSpace c = true)
    (b : List Char) :
    findSub kwEnd (kwFunction ++ c :: b) =
      (findSub kwEnd b).map (fun i => i + 9) := by
  show findSub kwEnd
    ('f' :: 'u' :: 'n' :: 'c' :: 't' :: 'i' :: 'o' :: 'n' :: c :: b) = _
  rw [findSub_end_stepNe (by decide), findSub_end_stepNe (by decide),
    findSub_end_stepNe (by decide), findSub_end_stepNe (by decide),
    findSub_end_stepNe (by decide), findSub_end_stepNe (by decide),
    findSub_end_stepNe (by decide), findSub_end_stepNe (by decide),
    findSub_end_stepNe (beq_e_of_space hc)]
  cases findSub kwEnd b with
  | none => rfl
  | some i =>
    simp only [Option.map_some', Option.some.injEq]
    try omega

theorem findSub_end_struct (c : Char) (hc : isSpace c = true)
    (b : List Char) :
    findSub kwEnd (kwStruct ++ c :: b) =
      (findSub kwEnd b).map (fun i => i + 7) := by
  show findSub kwEnd ('s' :: 't' :: 'r' :: 'u' :: 'c' :: 't' :: c :: b) = _
  rw [findSub_end_stepNe (by decide), findSub_end_stepNe (by decide),
    findSub_end_stepNe (by decide), findSub_end_stepNe (by decide),
    findSub_end_stepNe (by decide), findSub_end_stepNe (by decide),
    findSub_end_stepNe (beq_e_of_space hc)]
  cases findSub kwEnd b with
  | none => rfl
  | some i =>
    simp only [Option.map_some', Option.some.injEq]
    try omega

theorem findSub_end_mutable_gen (x : Char) (ws' b : List Char)
    (hx : isSpace x = true) (hws' : ∀ y ∈ ws', isSpace y = true) :
    findSub kwEnd (kwMutable ++ x :: (ws' ++ b)) =
      (findSub kwEnd b).map (fun i => i + (8 + ws'.length)) := by
  show findSub kwEnd
    ('m' :: 'u' :: 't' :: 'a' :: 'b' :: 'l' :: 'e' :: x :: (ws' ++ b)) = _
  rw [findSub_end_stepNe (by decide), findSub_end_stepNe (by decide),
    findSub_end_stepNe (by decide), findSub_end_stepNe (by decide),
    findSub_end_stepNe (by decide), findSub_end_stepNe (by decide),
    findSub_end_stepE (beq_n_of_space hx),
    show x :: (ws' ++ b) = (x :: ws') ++ b from rfl,
    findSub_end_ws (by
      intro y hy
      rcases List.mem_cons.mp hy with rfl | hy
      · exact hx
      · exact hws' y hy)]
  cases findSub kwEnd b with
  | none => rfl
  | some i =>
    simp only [Option.map_some', List.length_cons, Option.some.injEq]
    omega

theorem findSub_end_abstract_gen (x : Char) (ws' : List Char) (c : Char)
    (b : List Char) (hx : isSpace x = true)
    (hws' : ∀ y ∈ ws', isSpace y = true) (hc : isSpace c = true) :
    findSub kwEnd (kwAbstract ++ x :: (ws' ++ (kwType ++ c :: b))) =
      (findSub kwEnd b).map (fun i => i + (14 + ws'.length)) := by
  show findSub kwEnd
    ('a' :: 'b' :: 's' :: 't' :: 'r' :: 'a' :: 'c' :: 't' ::
      x :: (ws' ++ ('t' :: 'y' :: 'p' :: 'e' :: c :: b))) = _
  rw [findSub_end_stepNe (by decide), findSub_end_stepNe (by decide),
    findSub_end_stepNe (by decide), findSub_end_stepNe (by decide),
    findSub_end_stepNe (by decide), findSub_end_stepNe (by decide),
    findSub_end_stepNe (by decide), findSub_end_stepNe (by decide),
    show x :: (ws' ++ ('t' :: 'y' :: 'p' :: 'e' :: c :: b)) =
      (x :: ws') ++ ('t' :: 'y' :: 'p' :: 'e' :: c :: b) from rfl,
    findSub_end_ws (by
      intro y hy
      rcases List.mem_cons.mp hy with rfl | hy
      · exact hx
      · exact hws' y hy),
    findSub_end_stepNe (by decide), findSub_end_stepNe (by decide),
    findSub_end_stepNe (by decide), findSub_end_stepE (beq_n_of_space hc),
    findSub_end_stepNe (beq_e_of_space hc)]
  cases findSub kwEnd b with
  | none => rfl
  | some i =>
    simp only [Option.map_some', List.length_cons, Option.some.injEq]
    omega

/-! ## Specification of the definition alternation -/

theorem matchFunctionAlt_spec {u d : List Char}
    (h : matchFunctionAlt u = some d) :
    lstartsWith d u = true ∧ findSub kwEnd d = some (d.length - 3) ∧
    3 ≤ d.length ∧ ∃ c₀ t₀, d = c₀ :: t₀ ∧ isSpace c₀ = false := by
  unfold matchFunctionAlt at h
  split at h
  case isFalse => exact Option.noConfusion h
  case isTrue hp =>
    split at h
    next hu8 => exact Option.noConfusion h
    next c rest hu8 =>
      split at h
      case isFalse => exact Option.noConfusion h
      case isTrue hc =>
        split at h
        next i hfs =>
          injection h with h
          subst h
          have hbound : i + 3 ≤ rest.length := findSub_bound (by decide) hfs
          have hlen : (rest.take (i + 3)).length = i + 3 := by
            rw [List.length_take]
            exact min_eq_left hbound
          have hu : u = kwFunction ++ c :: rest := by
            have h0 : u = kwFunction ++ u.drop 8 :=
              eq_append_drop_of_lstartsWith hp
            rw [hu8] at h0
            exact h0
          refine ⟨?_, ?_, ?_, ?_⟩
          · rw [hu, lstartsWith_congr_append]
            simp [lstartsWith, lstartsWith_take_self]
          · rw [findSub_end_function c hc]
            have ht := findSub_take hfs
            rw [show i + kwEnd.length = i + 3 from rfl] at ht
            rw [ht]
            simp only [Option.map_some', Option.some.injEq,
              List.length_append, List.length_cons, hlen,
              show kwFunction.length = 8 from rfl]
            try omega
          · simp only [List.length_append, List.length_cons, hlen,
              show kwFunction.length = 8 from rfl]
            omega
          · exact ⟨'f', _, rfl, by decide⟩
        next hfs => exact Option.noConfusion h

theorem matchStructCore_spec {u d : List Char}
    (h : matchStructCore u = some d) :
    lstartsWith d u = true ∧ findSub kwEnd d = some (d.length - 3) ∧
    3 ≤ d.length ∧ ∃ c₀ t₀, d = c₀ :: t₀ ∧ isSpace c₀ = false := by
  unfold matchStructCore at h
  split at h
  case isFalse => exact Option.noConfusion h
  case isTrue hp =>
    split at h
    next hu6 => exact Option.noConfusion h
    next c rest hu6 =>
      split at h
      case isFalse => exact Option.noConfusion h
      case isTrue hc =>
        split at h
        next i hfs =>
          injection h with h
          subst h
          have hbound : i + 3 ≤ rest.length := findSub_bound (by decide) hfs
          have hlen : (rest.take (i + 3)).length = i + 3 := by
            rw [List.length_take]
            exact min_eq_left hbound
          have hu : u = kwStruct ++ c :: rest := by
            have h0 : u = kwStruct ++ u.drop 6 :=
              eq_append_drop_of_lstartsWith hp
            rw [hu6] at h0
            exact h0
          refine ⟨?_, ?_, ?_, ?_⟩
          · rw [hu, lstartsWith_congr_append]
            simp [lstartsWith, lstartsWith_take_self]
          · rw [findSub_end_struct c hc]
            have ht := findSub_take hfs
            rw [show i + kwEnd.length = i + 3 from rfl] at ht
            rw [ht]
            simp only [Option.map_some', Option.some.injEq,
              List.length_append, List.length_cons, hlen,
              show kwStruct.length = 6 from rfl]
            try omega
          · simp only [List.length_append, List.length_cons, hlen,
              show kwStruct.length = 6 from rfl]
            omega
          · exact ⟨'s', _, rfl, by decide⟩
        next hfs => exact Option.noConfusion h

theorem matchStructAlt_spec {u d : List Char}
    (h : matchStructAlt u = some d) :
    lstartsWith d u = true ∧ findSub kwEnd d = some (d.length - 3) ∧
    3 ≤ d.length ∧ ∃ c₀ t₀, d = c₀ :: t₀ ∧ isSpace c₀ = false := by
  unfold matchStructAlt at h
  split at h
  case isFalse => exact matchStructCore_spec h
  case isTrue hm =>
    split at h
    next hw => exact matchStructCore_spec h
    next w hw =>
      split at h
      next dcore hcore =>
        injection h with h
        subst h
        obtain ⟨hpre, hfs, hlen3, c₀, t₀, hd0, hc₀⟩ :=
          matchStructCore_spec hcore
        have hwle : w + 1 ≤ (u.drop 7).length := by
          have := wsCount_le (u.drop 7)
          omega
        have hwslen : ((u.drop 7).take (w + 1)).length = w + 1 := by
          rw [List.length_take]
          exact min_eq_left hwle
        have hwssp : ∀ x ∈ (u.drop 7).take (w + 1), isSpace x = true := by
          have := wsCount_take_space (u.drop 7)
          rw [hw] at this
          exact this
        have h7 : u = kwMutable ++ u.drop 7 := eq_append_drop_of_lstartsWith hm
        have hsplit : u.drop 7 =
            (u.drop 7).take (w + 1) ++ (u.drop 7).drop (w + 1) :=
          (List.take_append_drop (w + 1) (u.drop 7)).symm
        have hdrop2 : (u.drop 7).drop (w + 1) = u.drop (7 + (w + 1)) := by
          rw [List.drop_drop]
        have hcored : u.drop (7 + (w + 1)) =
            dcore ++ (u.drop (7 + (w + 1))).drop dcore.length :=
          eq_append_drop_of_lstartsWith hpre
        obtain ⟨x, ws', hwscons⟩ :
            ∃ x ws', (u.drop 7).take (w + 1) = x :: ws' := by
          cases hq : (u.drop 7).take (w + 1) with
          | nil => rw [hq] at hwslen; simp at hwslen
          | cons a b => exact ⟨a, b, rfl⟩
        have hx : isSpace x = true := by
          apply hwssp
          rw [hwscons]
          exact List.mem_cons_self x ws'
        have hws' : ∀ y ∈ ws', isSpace y = true := by
          intro y hy
          apply hwssp
          rw [hwscons]
          exact List.mem_cons_of_mem x hy
        have hws'len : ws'.length = w := by
          have := congrArg List.length hwscons
          rw [hwslen] at this
          simp at this
          omega
        refine ⟨?_, ?_, ?_, ?_⟩
        · apply (lstartsWith_iff _ _).mpr
          refine ⟨(u.drop (7 + (w + 1))).drop dcore.length, ?_⟩
          conv_lhs => rw [h7, hsplit, hdrop2, hcored]
          simp [List.append_assoc]
        · have hshape : kwMutable ++ (u.drop 7).take (w + 1) ++ dcore =
              kwMutable ++ x :: (ws' ++ dcore) := by
            rw [hwscons]
            simp [List.append_assoc]
          rw [hshape, findSub_end_mutable_gen x ws' dcore hx hws', hfs]
          simp only [Option.map_some', Option.some.injEq,
            List.length_append, List.length_cons,
            show kwMutable.length = 7 from rfl]
          omega
        · simp only [List.length_append, hwslen,
            show kwMutable.length = 7 from rfl]
          omega
        · exact ⟨'m', _, rfl, by decide⟩
      next hcore => exact matchStructCore_spec h

theorem matchAbstractAlt_spec {u d : List Char}
    (h : matchAbstractAlt u = some d) :
    lstartsWith d u = true ∧ findSub kwEnd d = some (d.length - 3) ∧
    3 ≤ d.length ∧ ∃ c₀ t₀, d = c₀ :: t₀ ∧ isSpace c₀ = false := by
  unfold matchAbstractAlt at h
  split at h
  case isFalse => exact Option.noConfusion h
  case isTrue ha =>
    split at h
    next hw => exact Option.noConfusion h
    next w hw =>
      split at h
      case isFalse => exact Option.noConfusion h
      case isTrue htype =>
        split at h
        next hu12 => exact Option.noConfusion h
        next c rest hu12 =>
          split at h
          case isFalse => exact Option.noConfusion h
          case isTrue hc =>
            split at h
            next i hfs =>
              injection h with h
              subst h
              have hbound : i + 3 ≤ rest.length :=
                findSub_bound (by decide) hfs
              have hlen : (rest.take (i + 3)).length = i + 3 := by
                rw [List.length_take]
                exact min_eq_left hbound
              have hwle : w + 1 ≤ (u.drop 8).length := by
                have := wsCount_le (u.drop 8)
                omega
              have hwslen : ((u.drop 8).take (w + 1)).length = w + 1 := by
                rw [List.length_take]
                exact min_eq_left hwle
              have hwssp : ∀ y ∈ (u.drop 8).take (w + 1), isSpace y = true := by
                have := wsCount_take_space (u.drop 8)
                rw [hw] at this
                exact this
              have h8 : u = kwAbstract ++ u.drop 8 :=
                eq_append_drop_of_lstartsWith ha
              have hsplit : u.drop 8 =
                  (u.drop 8).take (w + 1) ++ (u.drop 8).drop (w + 1) :=
                (List.take_append_drop (w + 1) (u.drop 8)).symm
              have hdrop2 : (u.drop 8).drop (w + 1) = u.drop (8 + (w + 1)) := by
                rw [List.drop_drop]
              have htyped : u.drop (8 + (w + 1)) =
                  kwType ++ (u.drop (8 + (w + 1))).drop 4 :=
                eq_append_drop_of_lstartsWith htype
              have hdrop4 : (u.drop (8 + (w + 1))).drop 4 =
                  u.drop (8 + (w + 1) + 4) := by
                rw [List.drop_drop]
              have hcrest : u.drop (8 + (w + 1) + 4) = c :: rest := hu12
              obtain ⟨x, ws', hwscons⟩ :
                  ∃ x ws', (u.drop 8).take (w + 1) = x :: ws' := by
                cases hq : (u.drop 8).take (w + 1) with
                | nil => rw [hq] at hwslen; simp at hwslen
                | cons a b => exact ⟨a, b, rfl⟩
              have hx : isSpace x = true := by
                apply hwssp
                rw [hwscons]
                exact List.mem_cons_self x ws'
              have hws' : ∀ y ∈ ws', isSpace y = true := by
                intro y hy
                apply hwssp
                rw [hwscons]
                exact List.mem_cons_of_mem x hy
              refine ⟨?_, ?_, ?_, ?_⟩
              · apply (lstartsWith_iff _ _).mpr
                refine ⟨rest.drop (i + 3), ?_⟩
                conv_lhs =>
                  rw [h8, hsplit, hdrop2, htyped, hdrop4, hcrest]
                simp only [List.append_assoc, List.cons_append,
                  List.append_cancel_left_eq, List.cons.injEq, true_and]
                rw [List.take_append_drop]
              · have hshape : kwAbstract ++ (u.drop 8).take (w + 1) ++ kwType ++
                    c :: rest.take (i + 3) =
                    kwAbstract ++ x :: (ws' ++
                      (kwType ++ c :: rest.take (i + 3))) := by
                  rw [hwscons]
                  simp [List.append_assoc]
                rw [hshape,
                  findSub_end_abstract_gen x ws' c (rest.take (i + 3)) hx hws' hc]
                have ht := findSub_take hfs
                rw [show i + kwEnd.length = i + 3 from rfl] at ht
                rw [ht]
                simp only [Option.map_some', Option.some.injEq,
                  List.length_append, List.length_cons, hlen, hwslen,
                  show kwAbstract.length = 8 from rfl,
                  show kwType.length = 4 from rfl]
                have hwl : ws'.length = w := by
                  have := congrArg List.length hwscons
                  rw [hwslen] at this
                  simp at this
                  omega
                omega
              · simp only [List.length_append, List.length_cons, hlen, hwslen,
                  show kwAbstract.length = 8 from rfl,
                  show kwType.length = 4 from rfl]
                omega
              · exact ⟨'a', _, rfl, by decide⟩
            next hfs => exact Option.noConfusion h

theorem matchAlt_spec {u d : List Char} (h : matchAlt u = some d) :
    lstartsWith d u = true ∧ findSub kwEnd d = some (d.length - 3) ∧
    3 ≤ d.length ∧ ∃ c₀ t₀, d = c₀ :: t₀ ∧ isSpace c₀ = false := by
  unfold matchAlt at h
  cases hf : matchFunctionAlt u with
  | some d' =>
    rw [hf] at h
    injection h with h
    subst h
    exact matchFunctionAlt_spec hf
  | none =>
    rw [hf] at h
    cases hs : matchStructAlt u with
    | some d' =>
      rw [hs] at h
      injection h with h
      subst h
      exact matchStructAlt_spec hs
    | none =>
      rw [hs] at h
      exact matchAbstractAlt_spec h

/-! ## Specification of the gap, the lazy docstring group, and a full match -/

theorem matchRest_spec {t g d : List Char}
    (h : matchRest t = some (g, d)) :
    t = g ++ d ++ t.drop (g.length + d.length) ∧
    g ≠ [] ∧ (∀ x ∈ g, isSpace x = true) ∧ g.getLast? = some '\n' ∧
    matchAlt (t.drop g.length) = some d := by
  unfold matchRest at h
  split at h
  next hw => exact Option.noConfusion h
  next w hw =>
    split at h
    case isFalse => exact Option.noConfusion h
    case isTrue hlast =>
      cases hma : matchAlt (t.drop (w + 1)) with
      | none => rw [hma] at h; exact Option.noConfusion h
      | some d' =>
        rw [hma] at h
        simp only [Option.map_some'] at h
        injection h with h
        rw [Prod.mk.injEq] at h
        obtain ⟨hg, hd⟩ := h
        subst hg
        subst hd
        have hwle : w + 1 ≤ t.length := by
          have := wsCount_le t
          omega
        have hglen : (t.take (w + 1)).length = w + 1 := by
          rw [List.length_take]
          exact min_eq_left hwle
        obtain ⟨hpre, _, _, _⟩ := matchAlt_spec hma
        have e1 : t.drop (w + 1) = d' ++ t.drop (w + 1 + d'.length) := by
          have h0 := eq_append_drop_of_lstartsWith hpre
          rw [List.drop_drop] at h0
          exact h0
        refine ⟨?_, ?_, ?_, eq_of_beq hlast, ?_⟩
        · conv_lhs => rw [← List.take_append_drop (w + 1) t, e1]
          rw [hglen]
          simp [List.append_assoc]
        · intro h0
          rw [h0] at hglen
          simp at hglen
        · have := wsCount_take_space t
          rw [hw] at this
          exact this
        · rw [hglen]
          exact hma

theorem matchClose_spec {r cont g d : List Char}
    (h : matchClose r = some (cont, g, d)) :
    r = cont ++ quote3 ++ r.drop (cont.length + 3) ∧
    matchRest (r.drop (cont.length + 3)) = some (g, d) ∧
    ∀ c₁ c₂, cont = c₁ ++ quote3 ++ c₂ →
      matchRest (c₂ ++ quote3 ++ r.drop (cont.length + 3)) = none := by
  induction r generalizing cont g d with
  | nil => exact Option.noConfusion h
  | cons c t ih =>
    unfold matchClose at h
    split at h
    next g' d' hif =>
      injection h with h
      rw [Prod.mk.injEq] at h
      obtain ⟨hcont, h⟩ := h
      rw [Prod.mk.injEq] at h
      obtain ⟨hg, hd⟩ := h
      subst hcont
      subst hg
      subst hd
      split at hif
      case isFalse => exact Option.noConfusion hif
      case isTrue hq =>
        have hdec : c :: t = quote3 ++ (c :: t).drop 3 :=
          eq_append_drop_of_lstartsWith hq
        refine ⟨by simpa using hdec, by simpa using hif, ?_⟩
        intro c₁ c₂ h12
        have := congrArg List.length h12
        simp [quote3] at this
        omega
    next hif =>
      split at h
      next cont' g' d' hmc =>
        injection h with h
        rw [Prod.mk.injEq] at h
        obtain ⟨hcont, h⟩ := h
        rw [Prod.mk.injEq] at h
        obtain ⟨hg, hd⟩ := h
        subst hcont
        subst hg
        subst hd
        obtain ⟨ihdec, ihrest, ihthird⟩ := ih hmc
        have hlenc : (c :: cont').length + 3 = (cont'.length + 3) + 1 := by
          simp
        have hdropc : (c :: t).drop ((c :: cont').length + 3) =
            t.drop (cont'.length + 3) := by
          rw [hlenc, List.drop_succ_cons]
        refine ⟨?_, ?_, ?_⟩
        · rw [hdropc]
          conv_lhs => rw [ihdec]
          simp [List.append_assoc]
        · rw [hdropc]
          exact ihrest
        · intro c₁ c₂ h12
          rw [hdropc]
          cases c₁ with
          | nil =>
            simp only [List.nil_append] at h12
            have h12' : c :: cont' = '"' :: '"' :: '"' :: c₂ := h12
            injection h12' with hchar h12''
            subst hchar
            subst h12''
            have hpre : lstartsWith quote3 ('"' :: t) = true := by
              apply (lstartsWith_iff _ _).mpr
              refine ⟨c₂ ++ quote3 ++
                t.drop (('"' :: '"' :: c₂ : List Char).length + 3), ?_⟩
              conv_lhs => rw [ihdec]
              simp [quote3, List.append_assoc]
            rw [if_pos hpre] at hif
            have ht3 : (('"' : Char) :: t).drop 3 =
                c₂ ++ quote3 ++
                  t.drop (('"' :: '"' :: c₂ : List Char).length + 3) := by
              conv_lhs => rw [ihdec]
              simp [quote3, List.append_assoc]
            rw [ht3] at hif
            exact hif
          | cons a c₁' =>
            have h12' : c :: cont' = a :: (c₁' ++ quote3 ++ c₂) := h12
            injection h12' with hchar h12'
            subst hchar
            exact h12' ▸ ihthird c₁' c₂ h12'
      next hmc => exact Option.noConfusion h

theorem matchAt_spec {s doc g d : List Char}
    (h : matchAt s = some (doc, g, d)) :
    s = quote3 ++ doc ++ quote3 ++ g ++ d ++
      s.drop (6 + doc.length + g.length + d.length) ∧
    g ≠ [] ∧ (∀ x ∈ g, isSpace x = true) ∧ g.getLast? = some '\n' ∧
    findSub kwEnd d = some (d.length - 3) ∧ 3 ≤ d.length ∧
    (∃ c₀ t₀, d = c₀ :: t₀ ∧ isSpace c₀ = false) ∧
    (∀ c₁ c₂, doc = c₁ ++ quote3 ++ c₂ →
      matchRest (c₂ ++ quote3 ++ s.drop (6 + doc.length)) = none) := by
  unfold matchAt at h
  split at h
  case isFalse => exact Option.noConfusion h
  case isTrue hq =>
    obtain ⟨hdec, hrest, hthird⟩ := matchClose_spec h
    have hs3 : s = quote3 ++ s.drop 3 := eq_append_drop_of_lstartsWith hq
    have hS : (s.drop 3).drop (doc.length + 3) = s.drop (6 + doc.length) := by
      rw [List.drop_drop]
      have : 3 + (doc.length + 3) = 6 + doc.length := by omega
      rw [this]
    rw [hS] at hdec hrest hthird
    obtain ⟨hrdec, hgne, hgsp, hglast, hmalt⟩ := matchRest_spec hrest
    obtain ⟨hdpre, hfsd, hd3, hhead⟩ := matchAlt_spec hmalt
    have htail : (s.drop (6 + doc.length)).drop (g.length + d.length) =
        s.drop (6 + doc.length + g.length + d.length) := by
      rw [List.drop_drop]
      have : 6 + doc.length + (g.length + d.length) =
          6 + doc.length + g.length + d.length := by omega
      rw [this]
    rw [htail] at hrdec
    refine ⟨?_, hgne, hgsp, hglast, hfsd, hd3, hhead, hthird⟩
    conv_lhs => rw [hs3, hdec, hrdec]
    simp [List.append_assoc]

/-! ## From single matches to the scan, and auxiliary facts -/

theorem scanAux_mem {fuel : Nat} :
    ∀ {s : List Char} {pos : Nat} {code : List Char} {m : RawMatch},
      s = code.drop pos → m ∈ scanAux fuel s pos →
      matchAt (code.drop m.pos) = some (m.doc, m.gap, m.defn) ∧
        pos ≤ m.pos := by
  induction fuel with
  | zero =>
    intro s pos code m _ hm
    simp [scanAux] at hm
  | succ fuel ih =>
    intro s pos code m hs hm
    cases s with
    | nil => simp [scanAux] at hm
    | cons c t =>
      have ht : t = code.drop (pos + 1) := by
        calc t = (c :: t).drop 1 := rfl
          _ = (code.drop pos).drop 1 := by rw [← hs]
          _ = code.drop (pos + 1) := by rw [List.drop_drop]
      unfold scanAux at hm
      split at hm
      next doc g d hma =>
        rcases List.mem_cons.mp hm with rfl | hm
        · refine ⟨?_, Nat.le_refl _⟩
          rw [← hs]
          exact hma
        · have hs' : t.drop (5 + doc.length + g.length + d.length) =
              code.drop (pos + 6 + doc.length + g.length + d.length) := by
            rw [ht, List.drop_drop]
            have : pos + 1 + (5 + doc.length + g.length + d.length) =
                pos + 6 + doc.length + g.length + d.length := by omega
            rw [this]
          obtain ⟨hmm, hle⟩ := ih hs' hm
          exact ⟨hmm, by omega⟩
      next hma =>
        obtain ⟨hmm, hle⟩ := ih ht hm
        exact ⟨hmm, by omega⟩

theorem scanMatches_mem {code : List Char} {m : RawMatch}
    (hm : m ∈ scanMatches code) :
    matchAt (code.drop m.pos) = some (m.doc, m.gap, m.defn) :=
  (scanAux_mem (List.drop_zero code).symm hm).1

theorem find_docstring_mem {code d f : List Char} {s e : Nat}
    (h : (d, f, s, e) ∈ find_docstring_definitions code) :
    ∃ m : RawMatch, m ∈ scanMatches code ∧ d = pyStrip m.doc ∧
      f = pyStrip m.defn ∧ s = m.pos ∧
      e = m.pos + (6 + m.doc.length + m.gap.length + m.defn.length) := by
  unfold find_docstring_definitions at h
  obtain ⟨m, hm, he⟩ := List.mem_map.mp h
  simp only [Prod.mk.injEq] at he
  obtain ⟨h1, h2, h3, h4⟩ := he
  exact ⟨m, hm, h1.symm, h2.symm, h3.symm, h4.symm⟩

theorem pyStrip_eq_nil_iff (l : List Char) :
    pyStrip l = [] ↔ ∀ x ∈ l, isSpace x = true := by
  unfold pyStrip
  rw [List.reverse_eq_nil_iff, List.dropWhile_eq_nil_iff]
  constructor
  · intro h x hx
    have hsplit := List.takeWhile_append_dropWhile isSpace l
    rw [← hsplit] at hx
    rcases List.mem_append.mp hx with hx | hx
    · exact List.mem_takeWhile_imp hx
    · exact h x (List.mem_reverse.mpr hx)
  · intro h x hx
    apply h
    have hx' : x ∈ l.dropWhile isSpace := List.mem_reverse.mp hx
    exact (List.dropWhile_sublist isSpace).subset hx'

theorem pyStrip_ne_nil {l : List Char} {c : Char} (hc : c ∈ l)
    (hcs : isSpace c = false) : pyStrip l ≠ [] := by
  intro h
  have := (pyStrip_eq_nil_iff l).mp h c hc
  rw [hcs] at this
  exact Bool.noConfusion this

theorem count_newline_take_mono (code : List Char) {a b : Nat}
    (hab : a ≤ b) :
    (code.take a).count '\n' ≤ (code.take b).count '\n' := by
  have h1 : code.take a = (code.take b).take a := by
    rw [List.take_take, min_eq_left hab]
  rw [h1]
  exact (List.take_sublist a (code.take b)).count_le '\n'

theorem countLines_eq (l : List Char) : countLines l = l.count '\n' + 1 := by
  induction l with
  | nil => rfl
  | cons c t ih =>
    unfold countLines
    rw [ih]
    by_cases h : c = '\n'
    · subst h
      simp [List.count_cons]
      omega
    · simp [List.count_cons, h]

theorem bool_eq_false {b : Bool} (h : ¬b = true) : b = false := by
  cases b
  · rfl
  · exact absurd rfl h

theorem parse_eq_spec_order (d : List Char) :
    parse_definition_type_and_name d = claimClassify d := by
  by_cases h1 : lstartsWith kwAbstractType d = true
  · obtain ⟨r, rfl⟩ := (lstartsWith_iff _ _).mp h1
    have hf : lstartsWith kwFunction (kwAbstractType ++ r) = false :=
      lstartsWith_cons_ne (by decide) _ _
    have ha : lstartsWith kwAbstractType (kwAbstractType ++ r) = true :=
      lstartsWith_append _ _
    unfold parse_definition_type_and_name claimClassify
    rw [hf, ha]
    simp
    try rfl
  · by_cases h2 : lstartsWith kwMutableStruct d = true
    · obtain ⟨r, rfl⟩ := (lstartsWith_iff _ _).mp h2
      have hf : lstartsWith kwFunction (kwMutableStruct ++ r) = false :=
        lstartsWith_cons_ne (by decide) _ _
      have ha : lstartsWith kwAbstractType (kwMutableStruct ++ r) = false :=
        lstartsWith_cons_ne (by decide) _ _
      have hm : lstartsWith kwMutableStruct (kwMutableStruct ++ r) = true :=
        lstartsWith_append _ _
      unfold parse_definition_type_and_name claimClassify
      rw [hf, ha, hm]
      simp
      try rfl
    · by_cases h3 : lstartsWith kwStruct d = true
      · obtain ⟨r, rfl⟩ := (lstartsWith_iff _ _).mp h3
        have hf : lstartsWith kwFunction (kwStruct ++ r) = false :=
          lstartsWith_cons_ne (by decide) _ _
        have ha : lstartsWith kwAbstractType (kwStruct ++ r) = false :=
          lstartsWith_cons_ne (by decide) _ _
        have hm : lstartsWith kwMutableStruct (kwStruct ++ r) = false :=
          lstartsWith_cons_ne (by decide) _ _
        have hst : lstartsWith kwStruct (kwStruct ++ r) = true :=
          lstartsWith_append _ _
        unfold parse_definition_type_and_name claimClassify
        rw [hf, ha, hm, hst]
        simp
        try rfl
      · by_cases h4 : lstartsWith kwFunction d = true
        · obtain ⟨r, rfl⟩ := (lstartsWith_iff _ _).mp h4
          have ha : lstartsWith kwAbstractType (kwFunction ++ r) = false :=
            lstartsWith_cons_ne (by decide) _ _
          have hm : lstartsWith kwMutableStruct (kwFunction ++ r) = false :=
            lstartsWith_cons_ne (by decide) _ _
          have hst : lstartsWith kwStruct (kwFunction ++ r) = false :=
            lstartsWith_cons_ne (by decide) _ _
          have hfn : lstartsWith kwFunction (kwFunction ++ r) = true :=
            lstartsWith_append _ _
          unfold parse_definition_type_and_name claimClassify
          rw [ha, hm, hst, hfn]
          simp
          try rfl
        · unfold parse_definition_type_and_name claimClassify
          rw [bool_eq_false h1, bool_eq_false h2, bool_eq_false h3,
            bool_eq_false h4]
          simp

theorem mem_of_getLastOpt {l : List Char} {a : Char}
    (h : l.getLast? = some a) : a ∈ l := by
  induction l with
  | nil => exact Option.noConfusion h
  | cons c t ih =>
    cases t with
    | nil =>
      have ha : c = a := by
        have h' : some c = some a := h
        injection h'
      rw [ha]
      exact List.mem_cons_self a []
    | cons b u =>
      rw [List.getLast?_cons_cons] at h
      exact List.mem_cons_of_mem c (ih h)

theorem processFiles_first_bad (pre : List (String × Option (List Char)))
    (p : String) (rest : List (String × Option (List Char)))
    (hpre : ∀ q ∈ pre, q.2 ≠ none) :
    processFiles (pre ++ (p, none) :: rest) =
      Except.error (WalkErr.decodeError p) := by
  induction pre with
  | nil => rfl
  | cons q pre ih =>
    obtain ⟨qp, qc⟩ := q
    cases qc with
    | none => exact absurd rfl (hpre (qp, none) (List.mem_cons_self _ _))
    | some code =>
      rw [List.cons_append]
      unfold processFiles
      rw [ih (fun x hx => hpre x (List.mem_cons_of_mem _ hx))]

/-! ## The claims -/

/-- Claim C1, counterexample: on `lazyCexText` the produced documentation
capture is `a\x22\x22\x22 x\n\x22\x22\x22b`, which contains a closing
triple-quote delimiter (at index 1): the capture did not stop at the first
closing delimiter, because backtracking extended it past two delimiters
whose continuations fail to match. -/
theorem C1_counterexample :
    (find_docstring_definitions lazyCexText).map (fun r => r.1) =
      [("a\"\"\" x\n\"\"\"b").data] ∧
    findSub quote3 (("a\"\"\" x\n\"\"\"b").data) = some 1 := by
  exact ⟨rfl, rfl⟩

/-- Claim C1, amended: for every input, the matched definition group stops
at the first occurrence of the substring `end` after the opening keyword
(its first occurrence is its final three characters — in particular never
at a later or last `end` of the file), and the documentation capture stops
at the first closing triple-quote delimiter from which the remainder of
the pattern (whitespace gap plus definition) can complete a match: from
every closing delimiter occurring earlier inside the capture, the
remainder fails. -/
theorem C1_lazy_first_viable :
    ∀ s doc g d : List Char, matchAt s = some (doc, g, d) →
      findSub kwEnd d = some (d.length - 3) ∧
      ∀ c₁ c₂, doc = c₁ ++ quote3 ++ c₂ →
        matchRest (c₂ ++ quote3 ++ s.drop (6 + doc.length)) = none := by
  intro s doc g d h
  obtain ⟨_, _, _, _, hfs, _, _, hthird⟩ := matchAt_spec h
  exact ⟨hfs, hthird⟩

/-- Claim C1, witness: the amended claim instantiated on the
`add` example file. -/
theorem C1_lazy_first_viable_witness :
    findSub kwEnd (("function add(a, b)\n  a + b\nend").data) =
      some ((("function add(a, b)\n  a + b\nend").data).length - 3) ∧
    ∀ c₁ c₂, ("Adds two numbers.\n").data = c₁ ++ quote3 ++ c₂ →
      matchRest (c₂ ++ quote3 ++
        addExampleText.drop (6 + (("Adds two numbers.\n").data).length)) =
        none :=
  C1_lazy_first_viable addExampleText (("Adds two numbers.\n").data)
    ['\n'] (("function add(a, b)\n  a + b\nend").data) rfl

/-- Claim C2: the Definition Classifier agrees, on every trimmed
definition text, with the spec's rules taken in the spec's priority order
(`abstract type` → AbstractType, `mutable struct` → Struct, `struct` →
Struct, `function` → Function, otherwise Unknown with name `unknown`),
the name being the identifier-like token (letters, digits, `_`, `!`, `?`,
`'`) following the keyword(s) and its whitespace, stopping at the first
character outside that set, or `unknown` when no such token follows. -/
theorem C2_classifier_rules :
    ∀ d : List Char, parse_definition_type_and_name d = claimClassify d :=
  parse_eq_spec_order

/-- Claim C3: on the `add` example file the File Chunker produces exactly
one chunk, of kind Function (source string "function"), name `add`,
documentation `Adds two numbers.`, spanning lines 1–5. -/
theorem C3_add_example :
    ∀ fname : String,
      chunksOfCode fname addExampleText =
        [{ type := "function", name := "add",
           docstring := ("Adds two numbers.").data,
           definition_code := ("function add(a, b)\n  a + b\nend").data,
           filename := fname, start_line := 1, end_line := 5 }] := by
  intro fname
  rfl

/-- Claim C4: every chunk produced by the File Chunker satisfies
`start_line ≤ end_line` and has a non-empty (trimmed) definition text. -/
theorem C4_chunk_invariants :
    ∀ (path : String) (code : List Char) (ch : Chunk),
      ch ∈ chunksOfCode path code →
      ch.start_line ≤ ch.end_line ∧ ch.definition_code ≠ [] := by
  intro path code ch hch
  unfold chunksOfCode at hch
  obtain ⟨r, hr, hre⟩ := List.mem_map.mp hch
  obtain ⟨d, f, s, e⟩ := r
  obtain ⟨m, hm, hd, hf, hs, he⟩ := find_docstring_mem hr
  subst hre
  constructor
  · show (compute_line_numbers code s e).1 ≤ (compute_line_numbers code s e).2
    unfold compute_line_numbers
    have hse : s ≤ e := by rw [hs, he]; omega
    have := count_newline_take_mono code hse
    simp only
    omega
  · show f ≠ []
    rw [hf]
    obtain ⟨_, _, _, _, _, _, ⟨c₀, t₀, hdc, hcs⟩, _⟩ :=
      matchAt_spec (scanMatches_mem hm)
    apply pyStrip_ne_nil ?_ hcs
    rw [hdc]
    exact List.mem_cons_self c₀ t₀

/-- Claim C4, witness: the invariants instantiated on the chunk the
`add` example file produces. -/
theorem C4_chunk_invariants_witness :
    exampleChunk.start_line ≤ exampleChunk.end_line ∧
    exampleChunk.definition_code ≠ [] :=
  C4_chunk_invariants "src/add.jl" addExampleText exampleChunk (by decide)

/-- Claim C5, counterexample: on a file system whose root does not exist,
`chunk_by_docstring` returns the normal empty result `ok []` instead of
failing with `NotFoundError` (`os.walk` swallows the `scandir` error). -/
theorem C5_counterexample :
    missingRootFs.rootExists = false ∧
    chunk_by_docstring missingRootFs = Except.ok [] := by
  exact ⟨rfl, rfl⟩

/-- Claim C5, amended: for every root path that does not exist or is not
a directory, the Tree Walker returns the normal empty result `ok []`; no
`NotFoundError` is raised. -/
theorem C5_missing_root_ok_empty :
    ∀ fs : FileSystem, fs.rootExists = false →
      chunk_by_docstring fs = Except.ok [] := by
  intro fs h
  unfold chunk_by_docstring jlFiles osWalk
  rw [h]
  rfl

/-- Claim C5, witness: the amended claim instantiated at the missing-root
file system. -/
theorem C5_missing_root_ok_empty_witness :
    chunk_by_docstring missingRootFs = Except.ok [] :=
  C5_missing_root_ok_empty missingRootFs rfl

/-- Claim C6, counterexample: on a tree whose first `.jl` file fails to
decode, the traversal aborts with the unhandled decode error — the
well-formed second file (which would contribute a chunk) is never
processed and nothing is returned for it. -/
theorem C6_counterexample :
    chunk_by_docstring badDecodeFs =
      Except.error (WalkErr.decodeError "src/bad.jl") ∧
    chunksOfCode "src/good.jl" addExampleText ≠ [] := by
  exact ⟨rfl, by decide⟩

/-- Claim C6, amended: a decode failure is not recovered: the walk aborts
with the decode error of the first undecodable `.jl` file, and no result
is returned for the remaining files. -/
theorem C6_decode_aborts :
    ∀ (fs : FileSystem) (pre : List (String × Option (List Char)))
      (p : String) (rest : List (String × Option (List Char))),
      jlFiles fs = pre ++ (p, none) :: rest →
      (∀ q ∈ pre, q.2 ≠ none) →
      chunk_by_docstring fs = Except.error (WalkErr.decodeError p) := by
  intro fs pre p rest hjl hpre
  unfold chunk_by_docstring
  rw [hjl]
  exact processFiles_first_bad pre p rest hpre

/-- Claim C6, witness: the amended claim instantiated at the
bad-then-good file system. -/
theorem C6_decode_aborts_witness :
    chunk_by_docstring badDecodeFs =
      Except.error (WalkErr.decodeError "src/bad.jl") :=
  C6_decode_aborts badDecodeFs [] "src/bad.jl"
    [("src/good.jl", some addExampleText)] rfl
    (fun q hq => absurd hq (List.not_mem_nil q))

/-- Claim C7, counterexample: the metadata produced by
`transform_chunks_to_documents` does not carry `name` (lookup yields
`none`), and the document built by `load_julia_code` does not have the
documentation-blank-line-definition text shape; so no single projector
satisfies all of the claim. -/
theorem C7_counterexample :
    ((transform_chunks_to_documents [exampleChunk]).map
      (fun doc => doc.2.lookup "name")) = [none] ∧
    (load_julia_code_document exampleChunk).1 ≠
      exampleChunk.docstring ++
        ('\n' :: '\n' :: exampleChunk.definition_code) := by
  exact ⟨rfl, by decide⟩

/-- Claim C7, amended: for every chunk, `transform_chunks_to_documents`
produces `(text, metadata)` with `text` the documentation followed by a
blank line and the definition text, and `metadata` carrying the file path
(`filename`), `start_line` and `end_line` — but not `name` (the name is
carried only by the agent's `load_julia_code` projection, whose text is a
labelled template instead). -/
theorem C7_projector :
    ∀ cs : List Chunk,
      transform_chunks_to_documents cs = cs.map claimProjector ∧
      (transform_chunks_to_documents cs).map
          (fun doc => (doc.2.lookup "filename", doc.2.lookup "start_line",
            doc.2.lookup "end_line", doc.2.lookup "name")) =
        cs.map (fun c => (some (MetaVal.str c.filename),
          some (MetaVal.nat c.start_line), some (MetaVal.nat c.end_line),
          (none : Option MetaVal))) := by
  intro cs
  constructor
  · rfl
  · induction cs with
    | nil => rfl
    | cons c cs ih =>
      simp only [transform_chunks_to_documents, List.map_cons] at ih ⊢
      rw [ih]
      rfl

/-- Claim C8, counterexample: on `blankDocText` the produced chunk has
empty documentation although the capture group matched the single newline
character — non-zero-width content that strips to empty. -/
theorem C8_counterexample :
    (find_docstring_definitions blankDocText).map (fun r => r.1) = [[]] ∧
    matchAt blankDocText =
      some (['\n'], ['\n'], ("function f() x end").data) ∧
    (['\n'] : List Char) ≠ [] := by
  exact ⟨rfl, rfl, by decide⟩

/-- Claim C8, amended: every produced documentation field is the trimmed
text captured between the documentation delimiters (never null — the
field always carries a list), and it is empty exactly when the captured
content is entirely whitespace (zero-width or whitespace-only). -/
theorem C8_documentation_trimmed :
    ∀ (code d f : List Char) (s e : Nat),
      (d, f, s, e) ∈ find_docstring_definitions code →
      ∃ raw g rawdef : List Char,
        matchAt (code.drop s) = some (raw, g, rawdef) ∧
        code.drop s = quote3 ++ raw ++ quote3 ++ g ++ rawdef ++
          code.drop e ∧
        d = pyStrip raw ∧ f = pyStrip rawdef ∧
        (d = [] ↔ raw.all isSpace = true) := by
  intro code d f s e h
  obtain ⟨m, hm, hd, hf, hs, he⟩ := find_docstring_mem h
  subst hd
  subst hf
  subst hs
  subst he
  refine ⟨m.doc, m.gap, m.defn, scanMatches_mem hm, ?_, rfl, rfl, ?_⟩
  · obtain ⟨hdec, _⟩ := matchAt_spec (scanMatches_mem hm)
    have hdd : (code.drop m.pos).drop
        (6 + m.doc.length + m.gap.length + m.defn.length) =
        code.drop
          (m.pos + (6 + m.doc.length + m.gap.length + m.defn.length)) := by
      rw [List.drop_drop]
    rw [hdd] at hdec
    exact hdec
  · constructor
    · intro hd0
      have := (pyStrip_eq_nil_iff m.doc).mp hd0
      rw [List.all_eq_true]
      exact this
    · intro hall
      apply (pyStrip_eq_nil_iff m.doc).mpr
      rw [List.all_eq_true] at hall
      exact hall

/-- Claim C8, witness: the amended claim instantiated on the
whitespace-only-docstring file. -/
theorem C8_documentation_trimmed_witness :
    ∃ raw g rawdef : List Char,
      matchAt (blankDocText.drop 0) = some (raw, g, rawdef) ∧
      blankDocText.drop 0 = quote3 ++ raw ++ quote3 ++ g ++ rawdef ++
        blankDocText.drop 26 ∧
      ([] : List Char) = pyStrip raw ∧
      ("function f() x end").data = pyStrip rawdef ∧
      (([] : List Char) = [] ↔ raw.all isSpace = true) :=
  C8_documentation_trimmed blankDocText [] (("function f() x end").data)
    0 26 (by decide)

/-- Claim C9: the Line Mapper is the pure function returning the newline
count of `full_text[0:start_offset]` plus one and likewise for the end
offset; equivalently, each component is the number of lines the
corresponding prefix spans. -/
theorem C9_line_mapper :
    ∀ (code : List Char) (s e : Nat),
      compute_line_numbers code s e =
        ((code.take s).count '\n' + 1, (code.take e).count '\n' + 1) ∧
      compute_line_numbers code s e =
        (countLines (code.take s), countLines (code.take e)) := by
  intro code s e
  refine ⟨rfl, ?_⟩
  unfold compute_line_numbers
  rw [countLines_eq, countLines_eq]

/-- Claim C10: every match decomposes the text into the delimited
documentation, a whitespace gap, and the definition, where the gap
contains a newline (indeed ends with one, immediately before the
definition keyword): a closing delimiter followed only by spaces or tabs
before the keyword can never produce a match for that pair. -/
theorem C10_newline_required :
    ∀ s doc g d : List Char, matchAt s = some (doc, g, d) →
      s = quote3 ++ doc ++ quote3 ++ g ++ d ++
        s.drop (6 + doc.length + g.length + d.length) ∧
      (∀ x ∈ g, isSpace x = true) ∧ '\n' ∈ g ∧ g.getLast? = some '\n' := by
  intro s doc g d h
  obtain ⟨hdec, _, hgsp, hglast, _⟩ := matchAt_spec h
  exact ⟨hdec, hgsp, mem_of_getLastOpt hglast, hglast⟩

/-- Claim C10, witness: the decomposition and gap facts instantiated on the
`add` example file. -/
theorem C10_newline_required_witness :
    addExampleText = quote3 ++ ("Adds two numbers.\n").data ++ quote3 ++
      ['\n'] ++ (("function add(a, b)\n  a + b\nend").data) ++
      addExampleText.drop (6 + (("Adds two numbers.\n").data).length +
        (['\n'] : List Char).length +
        (("function add(a, b)\n  a + b\nend").data).length) ∧
    (∀ x ∈ (['\n'] : List Char), isSpace x = true) ∧
    '\n' ∈ (['\n'] : List Char) ∧
    (['\n'] : List Char).getLast? = some '\n' :=
  C10_newline_required addExampleText (("Adds two numbers.\n").data)
    ['\n'] (("function add(a, b)\n  a + b\nend").data) rfl

end Hedgehog
